import Mathlib

/-!
Verification of the MPTD diffusion-threshold clustering pipeline.

A shallow embedding of the core of the MPTD repository:

* `propagate` embeds `SimpleMessage.forward` with `aggr='add'`
  (src/mptd/simple_message.py): per-edge messages `w_e * x[src_e]` are
  scatter-added at the target index into a zero-initialised output of
  length `N`.
* `spmmPath` embeds the sparse evaluation path
  (`SimpleMessage.message_and_aggregate`, i.e. `spmm(adj_t, x)`) where
  `adj_t` is the transposed adjacency matrix whose entry `(i, j)` holds
  the total weight of edges from source `j` to target `i`.
* `quantileLinear` embeds `torch.quantile` with its default linear
  interpolation at position `q * (n - 1)` of the sorted values.
* `torchMedian` embeds `torch.median`, which returns the lower of the two
  middle values for an even number of elements.
* `loopIter`, `runLoop`, `getClusters` embed `get_clusters`
  (src/mptd/clusterer.py): the per-iteration order is in-place additive
  propagation, quantile threshold and mask on the accumulated (not yet
  renormalised) scores, then division by the running maximum.  `sizes`
  is a view of the score column, so after the final division the sizes
  used downstream are the renormalised scores.  When `layers = 0` the
  loop body never runs and the trailing uses of `sizes`/`mask` hit
  undefined names, which the embedding models as an error result.
* `getRawData` embeds the filename dispatch of `get_raw_data`
  (src/mptd/reader.py): the `EVLI`/`EVLF` indicator search and the
  companion-name derivation by string replacement.

Scores are rationals (exact arithmetic in place of floating point),
vectors are lists, an edge is a `(source, target)` pair of indices.
-/

namespace MPTD

/-- Pair each edge with its weight: the optional per-edge weight vector is
zipped positionally, a missing weight vector means weight `1` for every
edge (the `message` hook of `SimpleMessage`). -/
def weightedEdges (edges : List (Nat × Nat)) (w : Option (List ℚ)) :
    List ((Nat × Nat) × ℚ) :=
  match w with
  | none => edges.map (fun e => (e, 1))
  | some ws => edges.zip ws

/-- One scatter-add step: add the message `w_e * x[src_e]` into the output
slot of the target node. -/
def scatterStep (x : List ℚ) (out : List ℚ) (e : (Nat × Nat) × ℚ) : List ℚ :=
  out.set e.1.2 (out.getD e.1.2 0 + e.2 * x.getD e.1.1 0)

/-- Embedding of `SimpleMessage.forward` with additive aggregation: compute all per-edge messages
and scatter-add them at the target indices into a zero vector of length
`N`. -/
def propagate (N : Nat) (x : List ℚ) (edges : List (Nat × Nat))
    (w : Option (List ℚ)) : List ℚ :=
  (weightedEdges edges w).foldl (scatterStep x) (List.replicate N 0)

/-- Entry `(i, j)` of the transposed adjacency matrix: total weight of the
edges with source `j` and target `i` (a coalesced sparse tensor sums
duplicate coordinates). -/
def adjT (wes : List ((Nat × Nat) × ℚ)) (i j : Nat) : ℚ :=
  ((wes.filter (fun e => e.1.1 == j && e.1.2 == i)).map (fun e => e.2)).sum

/-- The sparse evaluation path `spmm(adj_t, x)` of
`SimpleMessage.message_and_aggregate`: row `i` of the matrix-vector
product with the transposed adjacency matrix. -/
def spmmPath (N : Nat) (x : List ℚ) (edges : List (Nat × Nat))
    (w : Option (List ℚ)) : List ℚ :=
  (List.range N).map
    (fun i => ∑ j ∈ Finset.range N, adjT (weightedEdges edges w) i j * x.getD j 0)

/-- Embedding of `torch.quantile(xs, q)` with the default linear interpolation: with
`h = q * (n - 1)` over the ascending sorted values, interpolate between
the entries at `⌊h⌋` and `⌈h⌉`. -/
def quantileLinear (q : ℚ) (xs : List ℚ) : ℚ :=
  let sorted := xs.insertionSort (· ≤ ·)
  let h : ℚ := q * ((xs.length : ℚ) - 1)
  let lo := (⌊h⌋).toNat
  let hi := (⌈h⌉).toNat
  let slo := sorted.getD lo 0
  let shi := sorted.getD hi 0
  slo + (h - (lo : ℚ)) * (shi - slo)

/-- Embedding of `torch.median`: for an even number of elements torch returns the lower
of the two middle values of the sorted list. -/
def torchMedian (xs : List ℚ) : ℚ :=
  (xs.insertionSort (· ≤ ·)).getD ((xs.length - 1) / 2) 0

/-- Maximum entry of a tensor (`Tensor.max`); `0` on the empty list, which
the pipeline never queries. -/
def listMax : List ℚ → ℚ
  | [] => 0
  | x :: xs => xs.foldl max x

/-- The survivor mask `sizes >= threshold` with the quantile threshold
computed from the same vector. -/
def maskOf (q : ℚ) (xs : List ℚ) : List Bool :=
  xs.map (fun v => decide (quantileLinear q xs ≤ v))

/-- One iteration of the diffusion-threshold loop body:
`elaborated_data += forward(...)`, then threshold and mask from the
accumulated scores, then `elaborated_data /= elaborated_data.max()`.
Returns the renormalised scores and the mask. -/
def loopIter (edges : List (Nat × Nat)) (q : ℚ) (s : List ℚ) :
    List ℚ × List Bool :=
  let acc := List.zipWith (· + ·) s (propagate s.length s edges none)
  (acc.map (fun v => v / listMax acc), maskOf q acc)

/-- The `for i in range(layers)` loop of `get_clusters`: iterate `loopIter`,
carrying the score vector and the mask of the most recent iteration
(`none` while no iteration has run, since Python leaves `mask` and
`sizes` undefined until the first pass of the body). -/
def runLoop (edges : List (Nat × Nat)) (q : ℚ) :
    Nat → List ℚ × Option (List Bool) → List ℚ × Option (List Bool)
  | 0, st => st
  | n + 1, st => runLoop edges q n
      ((loopIter edges q st.1).1, some (loopIter edges q st.1).2)

/-- Loop state after `k` iterations starting from the all-ones score
vector `torch.ones_like(net_data.x[:, 0].unsqueeze(-1))`. -/
def loopState (edges : List (Nat × Nat)) (q : ℚ) (N : Nat) (k : Nat) :
    List ℚ × Option (List Bool) :=
  runLoop edges q k (List.replicate N 1, none)

/-- Boolean-mask row selection `xs[mask]`. -/
def applyMask {α : Type} (mask : List Bool) (xs : List α) : List α :=
  ((xs.zip mask).filter (fun p => p.2)).map (fun p => p.1)

/-- The tuple returned by `get_clusters`:
`masked_data, masked_sizes, labels, mask`. -/
structure ClusterResult where
  maskedData : List (List ℚ)
  maskedSizes : List ℚ
  labels : List Int
  mask : List Bool

/-- The stage of `get_clusters` after the loop: build the DBSCAN clusterer
with `eps = distances.median().item() / 2` and `min_samples = 5`, select
the surviving rows and sizes, and label them.  The Density Clusterer is
an external collaborator (sklearn `DBSCAN.fit_predict`), passed in as a
function of the point set, `eps` and `min_samples`. -/
def postLoop (dbscan : List (List ℚ) → ℚ → Nat → List Int)
    (xs : List (List ℚ)) (distances : List ℚ)
    (score : List ℚ) (mask : List Bool) : ClusterResult :=
  let maskedData := applyMask mask xs
  ⟨maskedData, applyMask mask score,
   dbscan maskedData (torchMedian distances / 2) 5, mask⟩

/-- Embedding of `get_clusters` (src/mptd/clusterer.py).  The score vector starts at all
ones; after the loop, `sizes` is a view of the score column (so it holds
the renormalised final scores) and `mask` is the final iteration's mask.
When `layers = 0` neither name was ever bound and the Python function
raises `NameError`, modelled as an error result. -/
def getClusters (dbscan : List (List ℚ) → ℚ → Nat → List Int)
    (xs : List (List ℚ)) (edges : List (Nat × Nat)) (distances : List ℚ)
    (layers : Nat) (q : ℚ) : Except String ClusterResult :=
  match loopState edges q xs.length layers with
  | (_, none) => Except.error "NameError: name 'mask' is not defined"
  | (score, some mask) => Except.ok (postLoop dbscan xs distances score mask)

/-! ## Reader (src/mptd/reader.py) -/

/-- Does the pattern occur at the head of the string? -/
def headMatch : List Char → List Char → Bool
  | _, [] => true
  | [], _ :: _ => false
  | c :: cs, p :: ps => c == p && headMatch cs ps

/-- Python's `pat in s` substring test. -/
def hasSub : List Char → List Char → Bool
  | [], pat => pat.isEmpty
  | c :: cs, pat => headMatch (c :: cs) pat || hasSub cs pat

/-- Left-to-right non-overlapping replacement, fuelled by the length of the
string so that the recursion is structural. -/
def replaceAllAux (pat rep : List Char) : Nat → List Char → List Char
  | 0, s => s
  | _ + 1, [] => []
  | fuel + 1, c :: cs =>
    if headMatch (c :: cs) pat then
      rep ++ replaceAllAux pat rep fuel (List.drop pat.length (c :: cs))
    else
      c :: replaceAllAux pat rep fuel cs

/-- Python's `s.replace(pat, rep)`: replace every (non-overlapping,
leftmost-first) occurrence of `pat` in `s` by `rep`. -/
def replaceAll (s pat rep : List Char) : List Char :=
  replaceAllAux pat rep s.length s

def evliTag : List Char := ['E', 'V', 'L', 'I']

def evlfTag : List Char := ['E', 'V', 'L', 'F']

/-- The filename dispatch of `get_raw_data`: find the `EVLI`/`EVLF`
indicator, derive the companion filename by replacement, and call
`read_events(genuine, simulated)` with the two files in the right roles;
with neither indicator present, raise.  `read_events` (and the filtering
applied to its table) is abstracted as a function of the genuine and
simulated filenames. -/
def getRawData {α : Type} (readEvents : List Char → List Char → α)
    (filename : List Char) : Except String α :=
  if hasSub filename evliTag then
    Except.ok (readEvents filename (replaceAll filename evliTag evlfTag))
  else if hasSub filename evlfTag then
    Except.ok (readEvents (replaceAll filename evlfTag evliTag) filename)
  else
    Except.error
      "filename does not contain the 'EVLI' or 'EVLF' indicator in the file name."

/-! ## Lemmas about the propagation operator -/

lemma scatterFold_length (x : List ℚ) (wes : List ((Nat × Nat) × ℚ)) :
    ∀ acc : List ℚ, (wes.foldl (scatterStep x) acc).length = acc.length := by
  induction wes with
  | nil => intro acc; rfl
  | cons e t ih =>
    intro acc
    rw [List.foldl_cons, ih (scatterStep x acc e)]
    simp [scatterStep]

lemma scatterFold_getD (x : List ℚ) (wes : List ((Nat × Nat) × ℚ)) :
    ∀ (acc : List ℚ) (i : Nat), i < acc.length →
      (wes.foldl (scatterStep x) acc).getD i 0 =
        acc.getD i 0 +
          ((wes.filter (fun e => e.1.2 == i)).map
            (fun e => e.2 * x.getD e.1.1 0)).sum := by
  induction wes with
  | nil => intro acc i _; simp
  | cons e t ih =>
    intro acc i hi
    have hlen : i < (scatterStep x acc e).length := by simpa [scatterStep] using hi
    rw [List.foldl_cons, ih (scatterStep x acc e) i hlen]
    by_cases h : e.1.2 = i
    · have hset : (scatterStep x acc e).getD i 0 =
          acc.getD i 0 + e.2 * x.getD e.1.1 0 := by
        subst h
        simp [scatterStep, List.getD_eq_getElem?_getD, List.getElem?_set_self hi]
      rw [hset]
      simp only [List.filter_cons, h, beq_self_eq_true, if_pos, List.map_cons,
        List.sum_cons]
      ring
    · have hset : (scatterStep x acc e).getD i 0 = acc.getD i 0 := by
        simp [scatterStep, List.getD_eq_getElem?_getD, List.getElem?_set_ne h]
      rw [hset]
      have hb : (e.1.2 == i) = false := by simp [h]
      simp [List.filter_cons, hb]

lemma propagate_length (N : Nat) (x : List ℚ) (edges : List (Nat × Nat))
    (w : Option (List ℚ)) : (propagate N x edges w).length = N := by
  unfold propagate
  rw [scatterFold_length]
  simp

lemma propagate_getD (N : Nat) (x : List ℚ) (edges : List (Nat × Nat))
    (w : Option (List ℚ)) (i : Nat) (hi : i < N) :
    (propagate N x edges w).getD i 0 =
      (((weightedEdges edges w).filter (fun e => e.1.2 == i)).map
        (fun e => e.2 * x.getD e.1.1 0)).sum := by
  unfold propagate
  rw [scatterFold_getD x _ (List.replicate N 0) i (by simpa using hi)]
  simp

lemma mem_weightedEdges (edges : List (Nat × Nat)) (w : Option (List ℚ))
    {e : (Nat × Nat) × ℚ} (he : e ∈ weightedEdges edges w) : e.1 ∈ edges := by
  cases w with
  | none =>
    simp only [weightedEdges, List.mem_map] at he
    obtain ⟨a, ha, rfl⟩ := he
    exact ha
  | some ws => exact (List.of_mem_zip he).1

lemma weightedEdges_nil (w : Option (List ℚ)) : weightedEdges [] w = [] := by
  cases w <;> rfl

/-- C2: entry `i` of the propagation output is the sum, over the edges
`(s, t)` with `t == i`, of `(weight if provided else 1) * x[s]`; a node
with no incoming edge receives `0`; on the empty edge set the whole
output is the zero vector. -/
theorem C2_propagate_entry (N : Nat) (x : List ℚ) (edges : List (Nat × Nat))
    (w : Option (List ℚ)) (i : Nat) (hi : i < N) :
    (propagate N x edges w).getD i 0 =
      (((weightedEdges edges w).filter (fun e => e.1.2 == i)).map
        (fun e => e.2 * x.getD e.1.1 0)).sum
    ∧ ((∀ e ∈ edges, e.2 ≠ i) → (propagate N x edges w).getD i 0 = 0)
    ∧ propagate N x [] w = List.replicate N 0 := by
  refine ⟨propagate_getD N x edges w i hi, ?_, ?_⟩
  · intro hno
    rw [propagate_getD N x edges w i hi]
    have hfil : (weightedEdges edges w).filter (fun e => e.1.2 == i) = [] := by
      rw [List.filter_eq_nil_iff]
      intro e he
      have := hno e.1 (mem_weightedEdges edges w he)
      simp [this]
    rw [hfil]
    rfl
  · unfold propagate
    rw [weightedEdges_nil]
    rfl

/-- Witness for C2 at a concrete input. -/
theorem C2_propagate_entry_witness :
    (1 : Nat) < 3 ∧
    ((propagate 3 [1, 2, 3] [(0, 1), (2, 1), (1, 0)] none).getD 1 0 =
      (((weightedEdges [(0, 1), (2, 1), (1, 0)] none).filter
          (fun e => e.1.2 == 1)).map (fun e => e.2 * [(1 : ℚ), 2, 3].getD e.1.1 0)).sum
      ∧ ((∀ e ∈ [(0, 1), (2, 1), (1, 0)], e.2 ≠ 1) →
          (propagate 3 [1, 2, 3] [(0, 1), (2, 1), (1, 0)] none).getD 1 0 = 0)
      ∧ propagate 3 [(1 : ℚ), 2, 3] [] none = List.replicate 3 0) :=
  ⟨by norm_num, C2_propagate_entry 3 [1, 2, 3] [(0, 1), (2, 1), (1, 0)] none 1 (by norm_num)⟩

/-! ## Dense and sparse evaluation paths agree (C6) -/

lemma filter_map_sum_ite {α : Type} (p : α → Bool) (g : α → ℚ) (l : List α) :
    ((l.filter p).map g).sum = (l.map (fun e => if p e then g e else 0)).sum := by
  induction l with
  | nil => rfl
  | cons a t ih =>
    by_cases h : p a
    · simp [List.filter_cons, h, ih]
    · simp [List.filter_cons, h, ih]

lemma sum_range_map_swap {α : Type} (N : Nat) (l : List α) (g : Nat → α → ℚ) :
    ∑ j ∈ Finset.range N, (l.map (g j)).sum =
      (l.map (fun e => ∑ j ∈ Finset.range N, g j e)).sum := by
  induction l with
  | nil => simp
  | cons a t ih =>
    simp only [List.map_cons, List.sum_cons, Finset.sum_add_distrib, ih]

/-- C6: for every graph with in-range source indices, every score vector
and every optional weight vector, the sparse path `spmm(adj_t, x)` equals
the dense scatter-add path of `SimpleMessage.forward` exactly (hence
within any floating tolerance). -/
theorem C6_dense_sparse_agree (N : Nat) (x : List ℚ) (edges : List (Nat × Nat))
    (w : Option (List ℚ)) (hsrc : ∀ e ∈ edges, e.1 < N) :
    spmmPath N x edges w = propagate N x edges w := by
  apply List.ext_getElem
  · simp [spmmPath, propagate_length]
  intro i hi hi'
  have hiN : i < N := by simpa [spmmPath] using hi
  have hgetD : (propagate N x edges w)[i] = (propagate N x edges w).getD i 0 := by
    rw [List.getD_eq_getElem?_getD, List.getElem?_eq_getElem hi', Option.getD_some]
  rw [hgetD, propagate_getD N x edges w i hiN]
  have hrow : (spmmPath N x edges w)[i] =
      ∑ j ∈ Finset.range N, adjT (weightedEdges edges w) i j * x.getD j 0 := by
    simp [spmmPath]
  rw [hrow]
  have hterm : ∀ j, adjT (weightedEdges edges w) i j * x.getD j 0 =
      (((weightedEdges edges w).filter
          (fun e => e.1.1 == j && e.1.2 == i)).map
        (fun e => e.2 * x.getD e.1.1 0)).sum := by
    intro j
    unfold adjT
    rw [← List.sum_map_mul_right]
    apply congrArg List.sum
    apply List.map_congr_left
    intro e he
    have : e.1.1 = j := by
      have := List.of_mem_filter he
      simp only [Bool.and_eq_true, beq_iff_eq] at this
      exact this.1
    rw [this]
  calc ∑ j ∈ Finset.range N, adjT (weightedEdges edges w) i j * x.getD j 0
      = ∑ j ∈ Finset.range N,
          (((weightedEdges edges w).filter
              (fun e => e.1.1 == j && e.1.2 == i)).map
            (fun e => e.2 * x.getD e.1.1 0)).sum := by
        exact Finset.sum_congr rfl (fun j _ => hterm j)
    _ = ∑ j ∈ Finset.range N,
          ((weightedEdges edges w).map
            (fun e => if e.1.1 == j && e.1.2 == i then e.2 * x.getD e.1.1 0 else 0)).sum := by
        exact Finset.sum_congr rfl (fun j _ => filter_map_sum_ite _ _ _)
    _ = ((weightedEdges edges w).map
          (fun e => ∑ j ∈ Finset.range N,
            if e.1.1 == j && e.1.2 == i then e.2 * x.getD e.1.1 0 else 0)).sum := by
        exact sum_range_map_swap N _ _
    _ = ((weightedEdges edges w).map
          (fun e => if e.1.2 == i then e.2 * x.getD e.1.1 0 else 0)).sum := by
        apply congrArg List.sum
        apply List.map_congr_left
        intro e he
        have hsrcE : e.1.1 < N := hsrc e.1 (mem_weightedEdges edges w he)
        by_cases ht : e.1.2 = i
        · have : ∀ j, (e.1.1 == j && e.1.2 == i) = (e.1.1 == j) := by
            intro j; simp [ht]
          simp only [this]
          have : ∑ j ∈ Finset.range N,
              (if e.1.1 == j then e.2 * x.getD e.1.1 0 else 0) =
              ∑ j ∈ Finset.range N,
              (if e.1.1 = j then e.2 * x.getD e.1.1 0 else 0) := by
            apply Finset.sum_congr rfl
            intro j _
            simp
          rw [this, Finset.sum_ite_eq]
          simp [ht, Finset.mem_range.mpr hsrcE]
        · have : ∀ j, (e.1.1 == j && e.1.2 == i) = false := by
            intro j; simp [ht]
          simp [this, ht]
    _ = (((weightedEdges edges w).filter (fun e => e.1.2 == i)).map
          (fun e => e.2 * x.getD e.1.1 0)).sum := by
        rw [filter_map_sum_ite]

/-- Witness for C6 at a concrete input. -/
theorem C6_dense_sparse_agree_witness :
    (∀ e ∈ [((0 : Nat), (1 : Nat)), (2, 1), (1, 0)], e.1 < 3) ∧
      spmmPath 3 [1, 2, 3] [(0, 1), (2, 1), (1, 0)] (some [5, 7, 11]) =
        propagate 3 [1, 2, 3] [(0, 1), (2, 1), (1, 0)] (some [5, 7, 11]) :=
  ⟨by decide,
   C6_dense_sparse_agree 3 [1, 2, 3] [(0, 1), (2, 1), (1, 0)] (some [5, 7, 11])
     (by decide)⟩

/-! ## Linearity of the propagation operator (C7) -/

lemma getD_zipWith_lincomb (a b : ℚ) :
    ∀ (x y : List ℚ), x.length = y.length → ∀ s : Nat,
      (List.zipWith (fun u v => a * u + b * v) x y).getD s 0 =
        a * x.getD s 0 + b * y.getD s 0 := by
  intro x
  induction x with
  | nil =>
    intro y h s
    have : y = [] := by
      cases y with
      | nil => rfl
      | cons c t => simp at h
    subst this
    simp
  | cons c t ih =>
    intro y h s
    cases y with
    | nil => simp at h
    | cons d u =>
      cases s with
      | zero => simp
      | succ m =>
        simp only [List.zipWith_cons_cons, List.getD_cons_succ]
        exact ih u (by simpa using h) m

lemma sum_map_lincomb {α : Type} (l : List α) (f g : α → ℚ) (a b : ℚ) :
    (l.map (fun e => a * f e + b * g e)).sum =
      a * (l.map f).sum + b * (l.map g).sum := by
  induction l with
  | nil => simp
  | cons c t ih =>
    simp only [List.map_cons, List.sum_cons, ih]
    ring

/-- C7: the propagation operator is linear: on vectors of equal length,
`propagate (a*x + b*y) = a * propagate x + b * propagate y` exactly
(hence within any floating tolerance), for every edge list and optional
weight vector. -/
theorem C7_propagate_linear (a b : ℚ) (x y : List ℚ) (edges : List (Nat × Nat))
    (w : Option (List ℚ)) (hlen : x.length = y.length) :
    propagate x.length (List.zipWith (fun u v => a * u + b * v) x y) edges w =
      List.zipWith (fun u v => a * u + b * v)
        (propagate x.length x edges w) (propagate x.length y edges w) := by
  apply List.ext_getElem
  · simp [propagate_length]
  intro i hi hi'
  have hiN : i < x.length := by simpa [propagate_length] using hi
  have h1 : i < (propagate x.length x edges w).length := by
    simpa [propagate_length] using hiN
  have h2 : i < (propagate x.length y edges w).length := by
    simpa [propagate_length] using hiN
  rw [List.getElem_zipWith]
  have e1 : (propagate x.length x edges w)[i] =
      (propagate x.length x edges w).getD i 0 := by
    rw [List.getD_eq_getElem?_getD, List.getElem?_eq_getElem h1, Option.getD_some]
  have e2 : (propagate x.length y edges w)[i] =
      (propagate x.length y edges w).getD i 0 := by
    rw [List.getD_eq_getElem?_getD, List.getElem?_eq_getElem h2, Option.getD_some]
  have e0 : (propagate x.length (List.zipWith (fun u v => a * u + b * v) x y) edges w)[i] =
      (propagate x.length (List.zipWith (fun u v => a * u + b * v) x y) edges w).getD i 0 := by
    rw [List.getD_eq_getElem?_getD, List.getElem?_eq_getElem hi, Option.getD_some]
  rw [e0, e1, e2, propagate_getD _ _ _ _ i hiN, propagate_getD _ _ _ _ i hiN,
    propagate_getD _ _ _ _ i hiN]
  have hmap : ((weightedEdges edges w).filter (fun e => e.1.2 == i)).map
      (fun e => e.2 * (List.zipWith (fun u v => a * u + b * v) x y).getD e.1.1 0) =
      ((weightedEdges edges w).filter (fun e => e.1.2 == i)).map
      (fun e => a * (e.2 * x.getD e.1.1 0) + b * (e.2 * y.getD e.1.1 0)) := by
    apply List.map_congr_left
    intro e _
    rw [getD_zipWith_lincomb a b x y hlen e.1.1]
    ring
  rw [hmap, sum_map_lincomb]

/-- Witness for C7 at a concrete input. -/
theorem C7_propagate_linear_witness :
    ([(1 : ℚ), 2].length = [(4 : ℚ), 5].length) ∧
      propagate [(1 : ℚ), 2].length
          (List.zipWith (fun u v => 2 * u + 3 * v) [(1 : ℚ), 2] [(4 : ℚ), 5])
          [(0, 1)] none =
        List.zipWith (fun u v => 2 * u + 3 * v)
          (propagate [(1 : ℚ), 2].length [(1 : ℚ), 2] [(0, 1)] none)
          (propagate [(1 : ℚ), 2].length [(4 : ℚ), 5] [(0, 1)] none) :=
  ⟨rfl, C7_propagate_linear 2 3 [1, 2] [4, 5] [(0, 1)] none rfl⟩

/-! ## Loop invariants: positivity and renormalisation (C1, C9) -/

lemma foldl_max_mem : ∀ (t : List ℚ) (x : ℚ), t.foldl max x ∈ x :: t := by
  intro t
  induction t with
  | nil => intro x; simp
  | cons c u ih =>
    intro x
    rw [List.foldl_cons]
    rcases List.mem_cons.1 (ih (max x c)) with h' | h'
    · rw [h']
      rcases max_choice x c with hm | hm <;> rw [hm] <;> simp
    · simp [h']

lemma init_le_foldl_max : ∀ (t : List ℚ) (x : ℚ), x ≤ t.foldl max x := by
  intro t
  induction t with
  | nil => intro x; simp
  | cons c u ih =>
    intro x
    exact le_trans (le_max_left x c) (ih (max x c))

lemma le_foldl_max : ∀ (t : List ℚ) (x a : ℚ), a ∈ x :: t → a ≤ t.foldl max x := by
  intro t
  induction t with
  | nil => intro x a ha; simp at ha; simp [ha]
  | cons c u ih =>
    intro x a ha
    rw [List.foldl_cons]
    rcases List.mem_cons.1 ha with h | h
    · subst h
      exact le_trans (le_max_left a c) (init_le_foldl_max u (max a c))
    · rcases List.mem_cons.1 h with h' | h'
      · subst h'
        exact le_trans (le_max_right x a) (init_le_foldl_max u (max x a))
      · exact ih (max x c) a (List.mem_cons_of_mem _ h')

lemma listMax_mem {xs : List ℚ} (h : xs ≠ []) : listMax xs ∈ xs := by
  cases xs with
  | nil => exact absurd rfl h
  | cons x t => exact foldl_max_mem t x

lemma le_listMax {xs : List ℚ} {a : ℚ} (h : a ∈ xs) : a ≤ listMax xs := by
  cases xs with
  | nil => simp at h
  | cons x t => exact le_foldl_max t x a h

lemma foldl_max_map_div (m : ℚ) (hm : 0 ≤ m) :
    ∀ (t : List ℚ) (x : ℚ),
      (t.map (fun v => v / m)).foldl max (x / m) = (t.foldl max x) / m := by
  intro t
  induction t with
  | nil => intro x; rfl
  | cons c u ih =>
    intro x
    simp only [List.map_cons, List.foldl_cons]
    rw [max_div_div_right hm, ih]

lemma listMax_map_div {xs : List ℚ} {m : ℚ} (hm : 0 ≤ m) (h : xs ≠ []) :
    listMax (xs.map (fun v => v / m)) = listMax xs / m := by
  cases xs with
  | nil => exact absurd rfl h
  | cons x t =>
    simp only [List.map_cons, listMax]
    exact foldl_max_map_div m hm t x

lemma getD_nonneg {x : List ℚ} (hx : ∀ v ∈ x, 0 ≤ v) (s : Nat) :
    0 ≤ x.getD s 0 := by
  rw [List.getD_eq_getElem?_getD]
  cases h : x[s]? with
  | none => simp
  | some v => simpa using hx v (List.getElem?_mem h)

lemma scatterFold_nonneg (x : List ℚ) (hx : ∀ v ∈ x, 0 ≤ v) :
    ∀ (wes : List ((Nat × Nat) × ℚ)) (acc : List ℚ),
      (∀ e ∈ wes, 0 ≤ e.2) → (∀ v ∈ acc, 0 ≤ v) →
      ∀ v ∈ wes.foldl (scatterStep x) acc, 0 ≤ v := by
  intro wes
  induction wes with
  | nil => intro acc _ hacc v hv; exact hacc v hv
  | cons e t ih =>
    intro acc hw hacc v hv
    rw [List.foldl_cons] at hv
    refine ih (scatterStep x acc e) (fun f hf => hw f (by simp [hf])) ?_ v hv
    intro u hu
    rcases List.mem_or_eq_of_mem_set hu with h | h
    · exact hacc u h
    · rw [h]
      have h1 : 0 ≤ acc.getD e.1.2 0 := getD_nonneg hacc e.1.2
      have h2 : 0 ≤ e.2 * x.getD e.1.1 0 :=
        mul_nonneg (hw e (by simp)) (getD_nonneg hx e.1.1)
      linarith

lemma propagate_nonneg (N : Nat) (x : List ℚ) (edges : List (Nat × Nat))
    (hx : ∀ v ∈ x, 0 ≤ v) : ∀ v ∈ propagate N x edges none, 0 ≤ v := by
  unfold propagate
  apply scatterFold_nonneg x hx
  · intro e he
    simp only [weightedEdges, List.mem_map] at he
    obtain ⟨a, _, rfl⟩ := he
    norm_num
  · intro v hv
    rw [List.eq_of_mem_replicate hv]

lemma zipWith_add_pos :
    ∀ (s p : List ℚ), (∀ v ∈ s, 0 < v) → (∀ v ∈ p, 0 ≤ v) →
      ∀ v ∈ List.zipWith (· + ·) s p, 0 < v := by
  intro s
  induction s with
  | nil => intro p _ _ v hv; simp at hv
  | cons c t ih =>
    intro p hs hp v hv
    cases p with
    | nil => simp at hv
    | cons d u =>
      rw [List.zipWith_cons_cons] at hv
      rcases List.mem_cons.1 hv with h | h
      · rw [h]
        exact add_pos_of_pos_of_nonneg (hs c (by simp)) (hp d (by simp))
      · exact ih u (fun v hv => hs v (by simp [hv])) (fun v hv => hp v (by simp [hv])) v h

lemma forall₂_le_zipWith_add :
    ∀ (s p : List ℚ), s.length = p.length → (∀ v ∈ p, 0 ≤ v) →
      List.Forall₂ (· ≤ ·) s (List.zipWith (· + ·) s p) := by
  intro s
  induction s with
  | nil => intro p _ _; simp
  | cons c t ih =>
    intro p hl hp
    cases p with
    | nil => simp at hl
    | cons d u =>
      rw [List.zipWith_cons_cons]
      refine List.Forall₂.cons ?_ (ih u (by simpa using hl) (fun v hv => hp v (by simp [hv])))
      have : 0 ≤ d := hp d (by simp)
      linarith

lemma runLoop_succ (edges : List (Nat × Nat)) (q : ℚ) :
    ∀ (n : Nat) (st : List ℚ × Option (List Bool)),
      runLoop edges q (n + 1) st =
        ((loopIter edges q (runLoop edges q n st).1).1,
         some (loopIter edges q (runLoop edges q n st).1).2) := by
  intro n
  induction n with
  | zero => intro st; rfl
  | succ m ih =>
    intro st
    have h1 : runLoop edges q (m + 2) st =
        runLoop edges q (m + 1)
          ((loopIter edges q st.1).1, some (loopIter edges q st.1).2) := rfl
    have h2 : runLoop edges q (m + 1) st =
        runLoop edges q m
          ((loopIter edges q st.1).1, some (loopIter edges q st.1).2) := rfl
    rw [h1, ih, h2]

lemma loopState_succ (edges : List (Nat × Nat)) (q : ℚ) (N k : Nat) :
    loopState edges q N (k + 1) =
      ((loopIter edges q (loopState edges q N k).1).1,
       some (loopIter edges q (loopState edges q N k).1).2) :=
  runLoop_succ edges q k _

lemma loopState_pos (edges : List (Nat × Nat)) (q : ℚ) (N : Nat) (hN : 0 < N) :
    ∀ k : Nat, (loopState edges q N k).1.length = N ∧
      ∀ v ∈ (loopState edges q N k).1, 0 < v := by
  intro k
  induction k with
  | zero =>
    constructor
    · simp [loopState, runLoop]
    · intro v hv
      simp only [loopState, runLoop] at hv
      rw [List.eq_of_mem_replicate hv]
      norm_num
  | succ m ih =>
    obtain ⟨hlen, hpos⟩ := ih
    rw [loopState_succ]
    set s := (loopState edges q N m).1 with hs
    have hp : ∀ v ∈ propagate s.length s edges none, 0 ≤ v :=
      propagate_nonneg s.length s edges (fun v hv => le_of_lt (hpos v hv))
    have hplen : (propagate s.length s edges none).length = s.length :=
      propagate_length _ _ _ _
    have haccpos : ∀ v ∈ List.zipWith (· + ·) s (propagate s.length s edges none), 0 < v :=
      zipWith_add_pos s _ hpos hp
    have hacclen : (List.zipWith (· + ·) s (propagate s.length s edges none)).length = N := by
      rw [List.length_zipWith, hplen, hlen]
      simp
    have haccne : List.zipWith (· + ·) s (propagate s.length s edges none) ≠ [] := by
      intro h
      rw [h] at hacclen
      simp at hacclen
      omega
    have hmax : 0 < listMax (List.zipWith (· + ·) s (propagate s.length s edges none)) :=
      haccpos _ (listMax_mem haccne)
    constructor
    · simp only [loopIter]
      rw [List.length_map, hacclen]
    · intro v hv
      simp only [loopIter, List.mem_map] at hv
      obtain ⟨u, hu, rfl⟩ := hv
      exact div_pos (haccpos u hu) hmax

/-- C1: one iteration of the diffusion-threshold loop first accumulates the
propagated scores, computes the quantile threshold and survivor mask from
the accumulated vector BEFORE renormalisation, then divides by the running
maximum; and immediately after the renormalisation the maximum entry of
the score vector equals exactly `1`. -/
theorem C1_iteration_order_and_renorm_max (edges : List (Nat × Nat)) (q : ℚ)
    (N k : Nat) (hN : 0 < N) :
    (loopState edges q N (k + 1)).2 =
        some (maskOf q (List.zipWith (· + ·) (loopState edges q N k).1
          (propagate (loopState edges q N k).1.length
            (loopState edges q N k).1 edges none)))
    ∧ (loopState edges q N (k + 1)).1 =
        (List.zipWith (· + ·) (loopState edges q N k).1
          (propagate (loopState edges q N k).1.length
            (loopState edges q N k).1 edges none)).map
          (fun v => v / listMax (List.zipWith (· + ·) (loopState edges q N k).1
            (propagate (loopState edges q N k).1.length
              (loopState edges q N k).1 edges none)))
    ∧ listMax (loopState edges q N (k + 1)).1 = 1 := by
  obtain ⟨hlen, hpos⟩ := loopState_pos edges q N hN k
  set s := (loopState edges q N k).1 with hs
  have hp : ∀ v ∈ propagate s.length s edges none, 0 ≤ v :=
    propagate_nonneg s.length s edges (fun v hv => le_of_lt (hpos v hv))
  have hplen : (propagate s.length s edges none).length = s.length :=
    propagate_length _ _ _ _
  have haccpos : ∀ v ∈ List.zipWith (· + ·) s (propagate s.length s edges none), 0 < v :=
    zipWith_add_pos s _ hpos hp
  have hacclen : (List.zipWith (· + ·) s (propagate s.length s edges none)).length = N := by
    rw [List.length_zipWith, hplen, hlen]
    simp
  have haccne : List.zipWith (· + ·) s (propagate s.length s edges none) ≠ [] := by
    intro h
    rw [h] at hacclen
    simp at hacclen
    omega
  have hmax : 0 < listMax (List.zipWith (· + ·) s (propagate s.length s edges none)) :=
    haccpos _ (listMax_mem haccne)
  refine ⟨?_, ?_, ?_⟩
  · rw [loopState_succ]
    rfl
  · rw [loopState_succ]
    rfl
  · rw [loopState_succ]
    simp only [loopIter]
    rw [listMax_map_div (le_of_lt hmax) haccne]
    exact div_self (ne_of_gt hmax)

/-- Witness for C1 at a concrete input. -/
theorem C1_iteration_order_and_renorm_max_witness :
    (0 : Nat) < 2 ∧
      ((loopState [(0, 1), (1, 0)] (1/2) 2 (1 + 1)).2 =
          some (maskOf (1/2) (List.zipWith (· + ·) (loopState [(0, 1), (1, 0)] (1/2) 2 1).1
            (propagate (loopState [(0, 1), (1, 0)] (1/2) 2 1).1.length
              (loopState [(0, 1), (1, 0)] (1/2) 2 1).1 [(0, 1), (1, 0)] none)))
      ∧ (loopState [(0, 1), (1, 0)] (1/2) 2 (1 + 1)).1 =
          (List.zipWith (· + ·) (loopState [(0, 1), (1, 0)] (1/2) 2 1).1
            (propagate (loopState [(0, 1), (1, 0)] (1/2) 2 1).1.length
              (loopState [(0, 1), (1, 0)] (1/2) 2 1).1 [(0, 1), (1, 0)] none)).map
            (fun v => v / listMax (List.zipWith (· + ·) (loopState [(0, 1), (1, 0)] (1/2) 2 1).1
              (propagate (loopState [(0, 1), (1, 0)] (1/2) 2 1).1.length
                (loopState [(0, 1), (1, 0)] (1/2) 2 1).1 [(0, 1), (1, 0)] none)))
      ∧ listMax (loopState [(0, 1), (1, 0)] (1/2) 2 (1 + 1)).1 = 1) :=
  ⟨by norm_num, C1_iteration_order_and_renorm_max [(0, 1), (1, 0)] (1/2) 2 1 (by norm_num)⟩

/-- C9: with the all-ones initialisation and unweighted in-range edges,
every entry of the score vector stays strictly positive at every
iteration, each entry is nondecreasing under the additive propagation
step, and the renormalisation divisor (the running maximum of the
accumulated scores) is strictly positive, so the division is always by a
nonzero value. -/
theorem C9_score_positive_invariant (edges : List (Nat × Nat)) (q : ℚ)
    (N : Nat) (hN : 0 < N) (k : Nat) :
    (∀ v ∈ (loopState edges q N k).1, 0 < v)
    ∧ List.Forall₂ (· ≤ ·) (loopState edges q N k).1
        (List.zipWith (· + ·) (loopState edges q N k).1
          (propagate (loopState edges q N k).1.length
            (loopState edges q N k).1 edges none))
    ∧ 0 < listMax (List.zipWith (· + ·) (loopState edges q N k).1
        (propagate (loopState edges q N k).1.length
          (loopState edges q N k).1 edges none)) := by
  obtain ⟨hlen, hpos⟩ := loopState_pos edges q N hN k
  set s := (loopState edges q N k).1 with hs
  have hp : ∀ v ∈ propagate s.length s edges none, 0 ≤ v :=
    propagate_nonneg s.length s edges (fun v hv => le_of_lt (hpos v hv))
  have hplen : (propagate s.length s edges none).length = s.length :=
    propagate_length _ _ _ _
  have haccpos : ∀ v ∈ List.zipWith (· + ·) s (propagate s.length s edges none), 0 < v :=
    zipWith_add_pos s _ hpos hp
  have hacclen : (List.zipWith (· + ·) s (propagate s.length s edges none)).length = N := by
    rw [List.length_zipWith, hplen, hlen]
    simp
  have haccne : List.zipWith (· + ·) s (propagate s.length s edges none) ≠ [] := by
    intro h
    rw [h] at hacclen
    simp at hacclen
    omega
  exact ⟨hpos, forall₂_le_zipWith_add s _ hplen.symm hp,
    haccpos _ (listMax_mem haccne)⟩

/-- Witness for C9 at a concrete input. -/
theorem C9_score_positive_invariant_witness :
    (0 : Nat) < 2 ∧
      ((∀ v ∈ (loopState [(0, 1)] (3/4) 2 2).1, 0 < v)
      ∧ List.Forall₂ (· ≤ ·) (loopState [(0, 1)] (3/4) 2 2).1
          (List.zipWith (· + ·) (loopState [(0, 1)] (3/4) 2 2).1
            (propagate (loopState [(0, 1)] (3/4) 2 2).1.length
              (loopState [(0, 1)] (3/4) 2 2).1 [(0, 1)] none))
      ∧ 0 < listMax (List.zipWith (· + ·) (loopState [(0, 1)] (3/4) 2 2).1
          (propagate (loopState [(0, 1)] (3/4) 2 2).1.length
            (loopState [(0, 1)] (3/4) 2 2).1 [(0, 1)] none))) :=
  ⟨by norm_num, C9_score_positive_invariant [(0, 1)] (3/4) 2 (by norm_num) 2⟩

/-! ## Degenerate layer count and post-loop behaviour (C3, C5, C8) -/

/-- C3 (evidence of the code bug): with `layers = 0` the loop body never
runs, `sizes` and `mask` are never bound, and `get_clusters` fails with a
`NameError` instead of returning the all-true mask with unchanged scores
that the spec requires. -/
theorem C3_layers_zero_crashes (dbscan : List (List ℚ) → ℚ → Nat → List Int)
    (xs : List (List ℚ)) (edges : List (Nat × Nat)) (distances : List ℚ)
    (q : ℚ) :
    getClusters dbscan xs edges distances 0 q =
      Except.error "NameError: name 'mask' is not defined" := rfl

lemma applyMask_all_false {α : Type} (mask : List Bool) (xs : List α)
    (h : ∀ b ∈ mask, b = false) : applyMask mask xs = [] := by
  unfold applyMask
  have hz : (xs.zip mask).filter (fun p => p.2) = [] := by
    rw [List.filter_eq_nil_iff]
    intro p hp
    have := h p.2 (List.of_mem_zip hp).2
    simp [this]
  rw [hz]
  rfl

/-- C5: if the final survivor mask selects zero nodes, the post-loop stage
of `get_clusters` hands the empty point set to the Density Clusterer and
returns an empty point set, an empty score vector and an empty label
array.  The Density Clusterer is quantified over its spec contract
(one label per input point). -/
theorem C5_empty_mask_empty_result (dbscan : List (List ℚ) → ℚ → Nat → List Int)
    (xs : List (List ℚ)) (distances : List ℚ) (score : List ℚ)
    (mask : List Bool)
    (hlen : ∀ pts eps mp, (dbscan pts eps mp).length = pts.length)
    (hmask : ∀ b ∈ mask, b = false) :
    (postLoop dbscan xs distances score mask).maskedData = []
    ∧ (postLoop dbscan xs distances score mask).maskedSizes = []
    ∧ (postLoop dbscan xs distances score mask).labels = [] := by
  have hdata : applyMask mask xs = [] := applyMask_all_false mask xs hmask
  have hsizes : applyMask mask score = [] := applyMask_all_false mask score hmask
  refine ⟨hdata, hsizes, ?_⟩
  have hl : (postLoop dbscan xs distances score mask).labels =
      dbscan (applyMask mask xs) (torchMedian distances / 2) 5 := rfl
  rw [hl, hdata]
  exact List.length_eq_zero.mp (hlen [] (torchMedian distances / 2) 5)

/-- Witness for C5 at a concrete input. -/
theorem C5_empty_mask_empty_result_witness :
    ((∀ pts eps mp, (((fun (pts : List (List ℚ)) (_ : ℚ) (_ : Nat) =>
        pts.map (fun _ => (0 : Int))) : List (List ℚ) → ℚ → Nat → List Int)
          pts eps mp).length = pts.length)
      ∧ (∀ b ∈ [false, false], b = false))
    ∧ ((postLoop (fun pts _ _ => pts.map (fun _ => (0 : Int)))
          [[1], [2]] [1] [1, 2] [false, false]).maskedData = []
      ∧ (postLoop (fun pts _ _ => pts.map (fun _ => (0 : Int)))
          [[1], [2]] [1] [1, 2] [false, false]).maskedSizes = []
      ∧ (postLoop (fun pts _ _ => pts.map (fun _ => (0 : Int)))
          [[1], [2]] [1] [1, 2] [false, false]).labels = []) :=
  ⟨⟨fun pts _ _ => by simp, by decide⟩,
   C5_empty_mask_empty_result (fun pts _ _ => pts.map (fun _ => (0 : Int)))
     [[1], [2]] [1] [1, 2] [false, false] (fun pts _ _ => by simp) (by decide)⟩

/-- C8: for every run with at least one layer, the Density Clusterer is
invoked on the surviving points with neighbourhood radius
`eps = torchMedian(distances) / 2` (half the median of the per-edge
distances, `torch.median` taking the lower middle value) and with
`min_samples = 5`; and `eps` genuinely varies with the distance data, so
it is not a hardcoded constant. -/
theorem C8_dbscan_parameters (dbscan : List (List ℚ) → ℚ → Nat → List Int)
    (xs : List (List ℚ)) (edges : List (Nat × Nat)) (distances : List ℚ)
    (L : Nat) (q : ℚ) :
    (∃ r, getClusters dbscan xs edges distances (L + 1) q = Except.ok r
      ∧ r.labels = dbscan r.maskedData (torchMedian distances / 2) 5)
    ∧ torchMedian [1, 3] / 2 ≠ torchMedian [5, 9] / 2 := by
  constructor
  · have h := loopState_succ edges q xs.length L
    refine ⟨postLoop dbscan xs distances
        (loopIter edges q (loopState edges q xs.length L).1).1
        (loopIter edges q (loopState edges q xs.length L).1).2, ?_, rfl⟩
    unfold getClusters
    rw [h]
  · have h1 : torchMedian [1, 3] = 1 := by
      norm_num [torchMedian, List.insertionSort, List.orderedInsert]
    have h2 : torchMedian [5, 9] = 5 := by
      norm_num [torchMedian, List.insertionSort, List.orderedInsert]
    rw [h1, h2]
    norm_num

/-! ## Reader dispatch (C10) -/

/-- C10: a filename containing neither the `EVLI` nor the `EVLF` indicator
makes `get_raw_data` fail immediately with the descriptive error and no
result; with an indicator present, the companion filename is the input
with that indicator replaced by the other one, and the genuine/simulated
roles are assigned accordingly. -/
theorem C10_reader_dispatch {α : Type} (readEvents : List Char → List Char → α)
    (filename : List Char) :
    (hasSub filename evliTag = false → hasSub filename evlfTag = false →
      getRawData readEvents filename =
        Except.error
          "filename does not contain the 'EVLI' or 'EVLF' indicator in the file name.")
    ∧ (hasSub filename evliTag = true →
      getRawData readEvents filename =
        Except.ok (readEvents filename (replaceAll filename evliTag evlfTag)))
    ∧ (hasSub filename evliTag = false → hasSub filename evlfTag = true →
      getRawData readEvents filename =
        Except.ok (readEvents (replaceAll filename evlfTag evliTag) filename)) := by
  refine ⟨?_, ?_, ?_⟩
  · intro h1 h2
    unfold getRawData
    rw [h1, h2]
    rfl
  · intro h1
    unfold getRawData
    rw [h1]
    rfl
  · intro h1 h2
    unfold getRawData
    rw [h1, h2]
    rfl

/-- Witness for C10 at a concrete filename containing `EVLI`. -/
theorem C10_reader_dispatch_witness :
    hasSub ['P', 'E', 'V', 'L', 'I', '1'] evliTag = true ∧
      getRawData (fun g s => (g, s)) ['P', 'E', 'V', 'L', 'I', '1'] =
        Except.ok (['P', 'E', 'V', 'L', 'I', '1'],
          replaceAll ['P', 'E', 'V', 'L', 'I', '1'] evliTag evlfTag) :=
  ⟨by decide,
   (C10_reader_dispatch (fun g s => (g, s)) ['P', 'E', 'V', 'L', 'I', '1']).2.1
     (by decide)⟩

/-! ## Survivor-mask cardinality (C4) -/

/-- C4 (counterexample): with the linear-interpolation quantile of
`torch.quantile`, the survivor mask can select fewer than
`ceil((1-q)*N)` nodes: at `q = 3/10` and scores `[0,1,2,3,4,5]` the
threshold is `3/2`, the mask keeps 4 nodes, but `ceil(0.7*6) = 5`. -/
theorem C4_counterexample_claim_false :
    (0 : ℚ) < 3 / 10 ∧ (3 / 10 : ℚ) < 1 ∧
    ¬(⌈((1 : ℚ) - 3 / 10) * (([0, 1, 2, 3, 4, 5] : List ℚ).length : ℚ)⌉ ≤
        ((maskOf (3 / 10) [0, 1, 2, 3, 4, 5]).countP (fun b => b == true) : ℤ)) := by
  have hc : (⌈(3 / 2 : ℚ)⌉ : ℤ) = 2 := by
    rw [Int.ceil_eq_iff]
    constructor <;> norm_num
  have hc2 : (⌈(3 / 2 : ℚ)⌉).toNat = 2 := by rw [hc]; rfl
  have hq : quantileLinear (3 / 10) [0, 1, 2, 3, 4, 5] = 3 / 2 := by
    norm_num [quantileLinear, List.insertionSort, List.orderedInsert, hc2]
  have hmask : maskOf (3 / 10) [0, 1, 2, 3, 4, 5] =
      [false, false, true, true, true, true] := by
    simp only [maskOf, hq, List.map_cons, List.map_nil]
    norm_num
  have hcount : (maskOf (3 / 10) [0, 1, 2, 3, 4, 5]).countP (fun b => b == true) = 4 := by
    rw [hmask]
    rfl
  have hceil : ⌈((1 : ℚ) - 3 / 10) * (([0, 1, 2, 3, 4, 5] : List ℚ).length : ℚ)⌉ = 5 := by
    have : (([0, 1, 2, 3, 4, 5] : List ℚ).length : ℚ) = 6 := by norm_num
    rw [this, Int.ceil_eq_iff]
    constructor <;> norm_num
  refine ⟨by norm_num, by norm_num, ?_⟩
  rw [hceil, hcount]
  norm_num

lemma quantileLinear_le_ceil_entry (q : ℚ) (xs : List ℚ) (hne : xs ≠ [])
    (hq0 : 0 ≤ q) (hq1 : q < 1) :
    quantileLinear q xs ≤
      (xs.insertionSort (· ≤ ·)).getD (⌈q * ((xs.length : ℚ) - 1)⌉).toNat 0 := by
  have hn1 : 1 ≤ xs.length := List.length_pos.mpr hne
  have hslen : (xs.insertionSort (· ≤ ·)).length = xs.length :=
    List.length_insertionSort _ xs
  have hsort : List.Sorted (· ≤ ·) (xs.insertionSort (· ≤ ·)) :=
    List.sorted_insertionSort _ xs
  have hcast1 : (1 : ℚ) ≤ (xs.length : ℚ) := by exact_mod_cast hn1
  have h0 : 0 ≤ q * ((xs.length : ℚ) - 1) := mul_nonneg hq0 (by linarith)
  have hle : q * ((xs.length : ℚ) - 1) ≤ (xs.length : ℚ) - 1 := by
    have := mul_le_of_le_one_left (a := q) (b := (xs.length : ℚ) - 1)
      (by linarith) (le_of_lt hq1)
    linarith
  have hceil0 : 0 ≤ ⌈q * ((xs.length : ℚ) - 1)⌉ := Int.ceil_nonneg h0
  have hfloor0 : 0 ≤ ⌊q * ((xs.length : ℚ) - 1)⌋ := Int.floor_nonneg.mpr h0
  have hceil_le : ⌈q * ((xs.length : ℚ) - 1)⌉ ≤ (xs.length : ℤ) - 1 := by
    rw [Int.ceil_le]
    push_cast
    linarith
  have hKZ : ((⌈q * ((xs.length : ℚ) - 1)⌉).toNat : ℤ) = ⌈q * ((xs.length : ℚ) - 1)⌉ :=
    Int.toNat_of_nonneg hceil0
  have hLZ : ((⌊q * ((xs.length : ℚ) - 1)⌋).toNat : ℤ) = ⌊q * ((xs.length : ℚ) - 1)⌋ :=
    Int.toNat_of_nonneg hfloor0
  have hLK : (⌊q * ((xs.length : ℚ) - 1)⌋).toNat ≤ (⌈q * ((xs.length : ℚ) - 1)⌉).toNat := by
    have := Int.floor_le_ceil (q * ((xs.length : ℚ) - 1))
    omega
  have hKn : (⌈q * ((xs.length : ℚ) - 1)⌉).toNat < xs.length := by omega
  have hKs : (⌈q * ((xs.length : ℚ) - 1)⌉).toNat < (xs.insertionSort (· ≤ ·)).length := by
    omega
  have hLs : (⌊q * ((xs.length : ℚ) - 1)⌋).toNat < (xs.insertionSort (· ≤ ·)).length := by
    omega
  have hslo : (xs.insertionSort (· ≤ ·)).getD (⌊q * ((xs.length : ℚ) - 1)⌋).toNat 0 =
      (xs.insertionSort (· ≤ ·))[(⌊q * ((xs.length : ℚ) - 1)⌋).toNat] := by
    rw [List.getD_eq_getElem?_getD, List.getElem?_eq_getElem hLs, Option.getD_some]
  have hshi : (xs.insertionSort (· ≤ ·)).getD (⌈q * ((xs.length : ℚ) - 1)⌉).toNat 0 =
      (xs.insertionSort (· ≤ ·))[(⌈q * ((xs.length : ℚ) - 1)⌉).toNat] := by
    rw [List.getD_eq_getElem?_getD, List.getElem?_eq_getElem hKs, Option.getD_some]
  have hmono : (xs.insertionSort (· ≤ ·))[(⌊q * ((xs.length : ℚ) - 1)⌋).toNat] ≤
      (xs.insertionSort (· ≤ ·))[(⌈q * ((xs.length : ℚ) - 1)⌉).toNat] := by
    have := hsort.rel_get_of_le (a := ⟨_, hLs⟩) (b := ⟨_, hKs⟩)
      (Fin.mk_le_mk.mpr hLK)
    simpa [List.get_eq_getElem] using this
  have hLQ : (((⌊q * ((xs.length : ℚ) - 1)⌋).toNat : ℕ) : ℚ) =
      ((⌊q * ((xs.length : ℚ) - 1)⌋ : ℤ) : ℚ) := by exact_mod_cast hLZ
  have hfrac0 : 0 ≤ q * ((xs.length : ℚ) - 1) -
      ((⌊q * ((xs.length : ℚ) - 1)⌋).toNat : ℚ) := by
    rw [hLQ]
    linarith [Int.floor_le (q * ((xs.length : ℚ) - 1))]
  have hfrac1 : q * ((xs.length : ℚ) - 1) -
      ((⌊q * ((xs.length : ℚ) - 1)⌋).toNat : ℚ) ≤ 1 := by
    rw [hLQ]
    linarith [Int.lt_floor_add_one (q * ((xs.length : ℚ) - 1))]
  show (xs.insertionSort (· ≤ ·)).getD (⌊q * ((xs.length : ℚ) - 1)⌋).toNat 0 +
      (q * ((xs.length : ℚ) - 1) - ((⌊q * ((xs.length : ℚ) - 1)⌋).toNat : ℚ)) *
        ((xs.insertionSort (· ≤ ·)).getD (⌈q * ((xs.length : ℚ) - 1)⌉).toNat 0 -
          (xs.insertionSort (· ≤ ·)).getD (⌊q * ((xs.length : ℚ) - 1)⌋).toNat 0) ≤ _
  rw [hslo, hshi]
  nlinarith [hmono, hfrac0, hfrac1]

lemma sorted_suffix_countP {l : List ℚ} (hsort : List.Sorted (· ≤ ·) l)
    {K : Nat} (hK : K < l.length) {t : ℚ} (ht : t ≤ l[K]) :
    l.length - K ≤ l.countP (fun v => decide (t ≤ v)) := by
  have hsplit : l = l.take K ++ l.drop K := (List.take_append_drop K l).symm
  have hdroplen : (l.drop K).length = l.length - K := List.length_drop K l
  have hall : ∀ a ∈ l.drop K, (fun v => decide (t ≤ v)) a = true := by
    intro a ha
    obtain ⟨j, hj, rfl⟩ := List.getElem_of_mem ha
    rw [List.getElem_drop]
    have hKj : K + j < l.length := by
      rw [hdroplen] at hj
      omega
    have : l[K] ≤ l[K + j] := by
      have := hsort.rel_get_of_le (a := ⟨K, hK⟩) (b := ⟨K + j, hKj⟩)
        (Fin.mk_le_mk.mpr (Nat.le_add_right K j))
      simpa [List.get_eq_getElem] using this
    simp only [decide_eq_true_eq]
    linarith
  have hdrop : (l.drop K).countP (fun v => decide (t ≤ v)) = l.length - K := by
    rw [List.countP_eq_length.mpr hall, hdroplen]
  calc l.length - K = (l.drop K).countP (fun v => decide (t ≤ v)) := hdrop.symm
    _ ≤ (l.take K).countP (fun v => decide (t ≤ v)) +
        (l.drop K).countP (fun v => decide (t ≤ v)) := Nat.le_add_left _ _
    _ = l.countP (fun v => decide (t ≤ v)) := by
        rw [← List.countP_append]
        rw [← hsplit]

/-- C4 (amended): for every nonempty score vector and quantile
`0 < q < 1`, the survivor mask (inclusive `>=` tie-break against the
linear-interpolation quantile) selects at least
`N - ceil(q*(N-1))` nodes and at most `N` nodes. -/
theorem C4_amended_mask_count_bounds (q : ℚ) (xs : List ℚ) (hne : xs ≠ [])
    (hq0 : 0 < q) (hq1 : q < 1) :
    xs.length - (⌈q * ((xs.length : ℚ) - 1)⌉).toNat ≤
      (maskOf q xs).countP (fun b => b == true)
    ∧ (maskOf q xs).countP (fun b => b == true) ≤ xs.length := by
  have hcount_eq : (maskOf q xs).countP (fun b => b == true) =
      xs.countP (fun v => decide (quantileLinear q xs ≤ v)) := by
    unfold maskOf
    rw [List.countP_map]
    apply List.countP_congr
    intro a _
    simp [Function.comp]
  constructor
  · rw [hcount_eq]
    have hperm : (xs.insertionSort (· ≤ ·)).Perm xs := List.perm_insertionSort _ xs
    rw [← hperm.countP_eq]
    have hsort : List.Sorted (· ≤ ·) (xs.insertionSort (· ≤ ·)) :=
      List.sorted_insertionSort _ xs
    have hslen : (xs.insertionSort (· ≤ ·)).length = xs.length :=
      List.length_insertionSort _ xs
    have hn1 : 1 ≤ xs.length := List.length_pos.mpr hne
    have hcast1 : (1 : ℚ) ≤ (xs.length : ℚ) := by exact_mod_cast hn1
    have h0 : 0 ≤ q * ((xs.length : ℚ) - 1) := mul_nonneg (le_of_lt hq0) (by linarith)
    have hle : q * ((xs.length : ℚ) - 1) ≤ (xs.length : ℚ) - 1 := by
      have := mul_le_of_le_one_left (a := q) (b := (xs.length : ℚ) - 1)
        (by linarith) (le_of_lt hq1)
      linarith
    have hceil0 : 0 ≤ ⌈q * ((xs.length : ℚ) - 1)⌉ := Int.ceil_nonneg h0
    have hceil_le : ⌈q * ((xs.length : ℚ) - 1)⌉ ≤ (xs.length : ℤ) - 1 := by
      rw [Int.ceil_le]
      push_cast
      linarith
    have hKZ : ((⌈q * ((xs.length : ℚ) - 1)⌉).toNat : ℤ) =
        ⌈q * ((xs.length : ℚ) - 1)⌉ := Int.toNat_of_nonneg hceil0
    have hKs : (⌈q * ((xs.length : ℚ) - 1)⌉).toNat <
        (xs.insertionSort (· ≤ ·)).length := by
      omega
    have hte : quantileLinear q xs ≤
        (xs.insertionSort (· ≤ ·))[(⌈q * ((xs.length : ℚ) - 1)⌉).toNat] := by
      have h1 := quantileLinear_le_ceil_entry q xs hne (le_of_lt hq0) hq1
      have h2 : (xs.insertionSort (· ≤ ·)).getD (⌈q * ((xs.length : ℚ) - 1)⌉).toNat 0 =
          (xs.insertionSort (· ≤ ·))[(⌈q * ((xs.length : ℚ) - 1)⌉).toNat] := by
        rw [List.getD_eq_getElem?_getD, List.getElem?_eq_getElem hKs, Option.getD_some]
      rw [h2] at h1
      exact h1
    have := sorted_suffix_countP hsort hKs hte
    rw [hslen] at this
    exact this
  · rw [hcount_eq]
    exact List.countP_le_length _

/-- Witness for the amended C4 at a concrete input. -/
theorem C4_amended_mask_count_bounds_witness :
    (([0, 1, 2, 3, 4, 5] : List ℚ) ≠ [] ∧ (0 : ℚ) < 3 / 10 ∧ (3 / 10 : ℚ) < 1) ∧
    (([0, 1, 2, 3, 4, 5] : List ℚ).length -
        (⌈(3 / 10 : ℚ) * ((([0, 1, 2, 3, 4, 5] : List ℚ).length : ℚ) - 1)⌉).toNat ≤
      (maskOf (3 / 10) [0, 1, 2, 3, 4, 5]).countP (fun b => b == true)
    ∧ (maskOf (3 / 10) [0, 1, 2, 3, 4, 5]).countP (fun b => b == true) ≤
        ([0, 1, 2, 3, 4, 5] : List ℚ).length) :=
  ⟨⟨by simp, by norm_num, by norm_num⟩,
   C4_amended_mask_count_bounds (3 / 10) [0, 1, 2, 3, 4, 5]
     (by simp) (by norm_num) (by norm_num)⟩

end MPTD
